import Mathlib

/-!
Verification of the repeat-classification tool in this repository.

The development shallowly embeds the code of the repository: the driver
file run-rg.go (configuration check, the line-splitting helper) and the
repeatgenome output helpers (JSON class-tree export, human-readable
minimizer dump, two-bit sequence decoding via fillSeq).  Parts of the
core package that are absent from the repository snapshot (the sequence
encoder, reverse complement, and the classification pipeline) are
modelled from the specification and their doc comments say so.

Machine integers are embedded as Nat with explicit reductions where the
code masks or truncates; a Go panic is embedded as the none case of an
Option result.
-/

namespace RepeatGenome

/-- Reference alphabet table of the two-bit code, lowercase: a is 0, c is 1,
g is 2, t is 3.  Used to state claims about decoding. -/
def baseChar (b : Nat) : Char :=
  if b = 0 then 'a' else if b = 1 then 'c' else if b = 2 then 'g' else 't'

/-- One byte written by fillSeq (source file part_000, lines 196-213): the
switch on the value of (seqInt >> (2 * (len - i - 1))) & 3.  The default
branch of the Go switch panics, but it is unreachable because the value is
masked with 3, so here the final branch is exactly the case of value 3. -/
def fillSeqChar (seqInt len i : Nat) : Char :=
  if (seqInt >>> (2 * (len - i - 1))) % 4 = 0 then 'a'
  else if (seqInt >>> (2 * (len - i - 1))) % 4 = 1 then 'c'
  else if (seqInt >>> (2 * (len - i - 1))) % 4 = 2 then 'g' else 't'

/-- fillSeq(slice, seqInt) from part_000: fills a byte slice of length len
with the decoded lowercase text of seqInt; a slice longer than 32 makes it
panic, embedded as none. -/
def fillSeq (len seqInt : Nat) : Option (List Char) :=
  if 32 < len then none
  else some ((List.range len).map (fillSeqChar seqInt len))

/-- Modelled from the spec: the two-bit big-endian encoder (encode_kmer of
section 4.A); the codec source file is absent from the snapshot.  The
leftmost base of the list lands in the highest-order used bit pair. -/
def encodeBE (bs : List Nat) : Nat :=
  bs.foldl (fun acc b => acc * 4 + b) 0

/-- Modelled from the spec: helper loop of reverse_complement (section 4.A);
the codec source file is absent from the snapshot.  It peels the low base
pair of the word, complements it and pushes it onto the accumulator, so the
result is the base-pair reversal of the complemented low 2*len bits. -/
def rcAux : Nat → Nat → Nat → Nat
  | 0, _, acc => acc
  | n + 1, w, acc => rcAux n (w / 4) (acc * 4 + (3 - w % 4))

/-- Modelled from the spec: reverse_complement(word, len) of section 4.A
complements the valid 2*len low bits and reverses base pairs; bits above
position 2*len do not survive into the result. -/
def reverse_complement (w len : Nat) : Nat := rcAux len w 0

theorem encodeBE_aux : ∀ (l : List Nat) (a : Nat),
    List.foldl (fun acc x => acc * 4 + x) a l = a * 4 ^ l.length + encodeBE l := by
  intro l
  induction l with
  | nil => intro a; simp [encodeBE]
  | cons x xs ih =>
      intro a
      have hl : List.foldl (fun acc x => acc * 4 + x) a (x :: xs)
          = List.foldl (fun acc x => acc * 4 + x) (a * 4 + x) xs := rfl
      have hr : encodeBE (x :: xs)
          = List.foldl (fun acc x => acc * 4 + x) (0 * 4 + x) xs := rfl
      rw [hl, hr, ih (a * 4 + x), ih (0 * 4 + x), List.length_cons]
      ring

theorem encodeBE_cons (b : Nat) (bs : List Nat) :
    encodeBE (b :: bs) = b * 4 ^ bs.length + encodeBE bs := by
  have h : encodeBE (b :: bs)
      = List.foldl (fun acc x => acc * 4 + x) (0 * 4 + b) bs := rfl
  rw [h, encodeBE_aux bs (0 * 4 + b)]
  ring

theorem encodeBE_lt (bs : List Nat) (h4 : ∀ b ∈ bs, b < 4) :
    encodeBE bs < 4 ^ bs.length := by
  induction bs with
  | nil => simp [encodeBE]
  | cons x xs ih =>
      have hx : x < 4 := h4 x (List.mem_cons_self x xs)
      have hxs : encodeBE xs < 4 ^ xs.length :=
        ih fun b hb => h4 b (List.mem_cons_of_mem x hb)
      rw [encodeBE_cons]
      calc x * 4 ^ xs.length + encodeBE xs
          < x * 4 ^ xs.length + 4 ^ xs.length := by omega
        _ = (x + 1) * 4 ^ xs.length := by ring
        _ ≤ 4 * 4 ^ xs.length := Nat.mul_le_mul_right _ (by omega)
        _ = 4 ^ (x :: xs).length := by rw [List.length_cons]; ring

theorem encodeBE_digit : ∀ (bs : List Nat), (∀ b ∈ bs, b < 4) →
    ∀ i, i < bs.length → encodeBE bs / 4 ^ (bs.length - 1 - i) % 4 = bs.getD i 0 := by
  intro bs
  induction bs with
  | nil => intro _ i hi; simp at hi
  | cons x xs ih =>
      intro h4 i hi
      have hx : x < 4 := h4 x (List.mem_cons_self x xs)
      have hxs4 : ∀ b ∈ xs, b < 4 := fun b hb => h4 b (List.mem_cons_of_mem x hb)
      cases i with
      | zero =>
          have hlt := encodeBE_lt xs hxs4
          simp only [List.length_cons, Nat.add_sub_cancel, Nat.sub_zero,
            List.getD_cons_zero]
          rw [encodeBE_cons, mul_comm, Nat.mul_add_div (by positivity),
            Nat.div_eq_of_lt hlt, Nat.add_zero, Nat.mod_eq_of_lt hx]
      | succ j =>
          have hj : j < xs.length := by
            simp only [List.length_cons] at hi; omega
          have hstep : (x :: xs).length - 1 - (j + 1) = xs.length - 1 - j := by
            simp only [List.length_cons]; omega
          rw [hstep, encodeBE_cons]
          have hpow : (4 : Nat) ^ xs.length = 4 ^ (xs.length - 1 - j) * 4 ^ (j + 1) := by
            rw [← pow_add]; congr 1; omega
          have h1 : x * 4 ^ xs.length + encodeBE xs
              = 4 ^ (xs.length - 1 - j) * (x * 4 ^ (j + 1)) + encodeBE xs := by
            rw [hpow]; ring
          rw [h1, Nat.mul_add_div (by positivity)]
          have h2 : x * 4 ^ (j + 1) = x * 4 ^ j * 4 := by rw [pow_succ]; ring
          rw [h2, Nat.add_comm, Nat.add_mul_mod_self_right, List.getD_cons_succ]
          exact ih hxs4 j hj

theorem rcAux_acc (n : Nat) : ∀ w acc, rcAux n w acc = acc * 4 ^ n + rcAux n w 0 := by
  induction n with
  | zero => intro w acc; simp [rcAux]
  | succ k ih =>
      intro w acc
      simp only [rcAux]
      rw [ih (w / 4) (acc * 4 + (3 - w % 4)), ih (w / 4) (0 * 4 + (3 - w % 4))]
      ring

theorem rcAux_lt (n : Nat) : ∀ w acc, rcAux n w acc < (acc + 1) * 4 ^ n := by
  induction n with
  | zero => intro w acc; simp [rcAux]
  | succ k ih =>
      intro w acc
      simp only [rcAux]
      calc rcAux k (w / 4) (acc * 4 + (3 - w % 4))
          < (acc * 4 + (3 - w % 4) + 1) * 4 ^ k := ih (w / 4) _
        _ ≤ ((acc + 1) * 4) * 4 ^ k := Nat.mul_le_mul_right _ (by omega)
        _ = (acc + 1) * 4 ^ (k + 1) := by ring

theorem reverse_complement_lt (w len : Nat) : reverse_complement w len < 4 ^ len := by
  simpa [reverse_complement] using rcAux_lt len w 0

theorem rcAux_digit_high (n : Nat) (w acc j : Nat) (hnj : n ≤ j) :
    rcAux n w acc / 4 ^ j % 4 = acc / 4 ^ (j - n) % 4 := by
  have hr : rcAux n w 0 < 4 ^ n := by simpa using rcAux_lt n w 0
  rw [rcAux_acc n w acc]
  have hpow : (4 : Nat) ^ j = 4 ^ n * 4 ^ (j - n) := by
    rw [← pow_add]; congr 1; omega
  rw [hpow, ← Nat.div_div_eq_div_mul, mul_comm, Nat.mul_add_div (by positivity),
    Nat.div_eq_of_lt hr, Nat.add_zero]

theorem rcAux_digit : ∀ (n w j : Nat), j < n →
    rcAux n w 0 / 4 ^ j % 4 = 3 - w / 4 ^ (n - 1 - j) % 4 := by
  intro n
  induction n with
  | zero => intro w j hj; omega
  | succ k ih =>
      intro w j hj
      simp only [rcAux, Nat.zero_mul, Nat.zero_add]
      by_cases hjk : j < k
      · rw [rcAux_acc k (w / 4) (3 - w % 4)]
        have hpow : (4 : Nat) ^ k = 4 ^ (k - j) * 4 ^ j := by
          rw [← pow_add]; congr 1; omega
        have h1 : (3 - w % 4) * 4 ^ k + rcAux k (w / 4) 0
            = 4 ^ j * ((3 - w % 4) * 4 ^ (k - j)) + rcAux k (w / 4) 0 := by
          rw [hpow]; ring
        rw [h1, Nat.mul_add_div (by positivity)]
        have hp : (4 : Nat) ^ (k - j) = 4 ^ (k - j - 1) * 4 := by
          rw [← pow_succ]; congr 1; omega
        have h2 : (3 - w % 4) * 4 ^ (k - j)
            = (3 - w % 4) * 4 ^ (k - j - 1) * 4 := by
          rw [hp]; ring
        rw [h2, Nat.add_comm, Nat.add_mul_mod_self_right, ih (w / 4) j hjk]
        have h3 : w / 4 / 4 ^ (k - 1 - j) = w / 4 ^ (k - j) := by
          have hpw : (4 : Nat) * 4 ^ (k - 1 - j) = 4 ^ (k - j) := by
            have he : k - j = (k - 1 - j) + 1 := by omega
            rw [he, pow_succ]; ring
          rw [Nat.div_div_eq_div_mul, hpw]
        rw [h3]
        have hidx : k + 1 - 1 - j = k - j := by omega
        rw [hidx]
      · have hjeq : j = k := by omega
        subst hjeq
        rw [rcAux_digit_high j (w / 4) (3 - w % 4) j le_rfl]
        simp only [Nat.sub_self, pow_zero, Nat.div_one]
        have hmod : (3 - w % 4) % 4 = 3 - w % 4 := Nat.mod_eq_of_lt (by omega)
        rw [hmod]
        have hidx : j + 1 - 1 - j = 0 := by omega
        rw [hidx, pow_zero, Nat.div_one]

theorem eq_of_base4_digits : ∀ (n a b : Nat), a < 4 ^ n → b < 4 ^ n →
    (∀ j, j < n → a / 4 ^ j % 4 = b / 4 ^ j % 4) → a = b := by
  intro n
  induction n with
  | zero => intro a b ha hb _; simp only [pow_zero] at ha hb; omega
  | succ k ih =>
      intro a b ha hb hd
      have h0 : a % 4 = b % 4 := by simpa using hd 0 (Nat.succ_pos k)
      have hdivpow : ∀ c j : Nat, c / 4 / 4 ^ j = c / 4 ^ (j + 1) := by
        intro c j
        rw [Nat.div_div_eq_div_mul, ← pow_succ']
      have hdiv : a / 4 = b / 4 := by
        apply ih
        · have : a < 4 * 4 ^ k := by rw [← pow_succ']; exact ha
          exact Nat.div_lt_of_lt_mul this
        · have : b < 4 * 4 ^ k := by rw [← pow_succ']; exact hb
          exact Nat.div_lt_of_lt_mul this
        · intro j hjk
          rw [hdivpow a j, hdivpow b j]
          exact hd (j + 1) (by omega)
      have ha4 := Nat.div_add_mod a 4
      have hb4 := Nat.div_add_mod b 4
      omega

theorem fillSeqChar_eq (w len i : Nat) :
    fillSeqChar w len i = baseChar ((w >>> (2 * (len - 1 - i))) % 4) := by
  have h : len - i - 1 = len - 1 - i := by omega
  simp only [fillSeqChar, baseChar, h]

theorem get?_eq_some_getD {α : Type} (l : List α) (d : α) (i : Nat)
    (h : i < l.length) : l.get? i = some (l.getD i d) := by
  induction l generalizing i with
  | nil => simp at h
  | cons x xs ih =>
      cases i with
      | zero => simp
      | succ j =>
          have hj : j < xs.length := by simpa using h
          simpa using ih j hj

theorem two_pow_two_mul (m : Nat) : (2 : Nat) ^ (2 * m) = 4 ^ m := by
  rw [pow_mul]; norm_num

/-- C2: for every 64-bit word and every length at most 32, fillSeq decodes
exactly len bytes, byte i being the lowercase letter (under the alphabet
a=0, c=1, g=2, t=3) of the base value (word >> 2*(len-1-i)) & 3; this makes
fillSeq the lowercase inverse of the big-endian two-bit encoding. -/
theorem fillSeq_decode_spec (len : Nat) (hlen : len ≤ 32) :
    (∀ w, ∃ l, fillSeq len w = some l ∧ l.length = len ∧
        ∀ i, i < len → l.get? i = some (baseChar ((w >>> (2 * (len - 1 - i))) % 4))) ∧
    (∀ bs : List Nat, bs.length = len → (∀ b ∈ bs, b < 4) →
        fillSeq len (encodeBE bs) = some (bs.map baseChar)) := by
  constructor
  · intro w
    refine ⟨(List.range len).map (fillSeqChar w len), ?_, ?_, ?_⟩
    · rw [fillSeq, if_neg (by omega)]
    · simp
    · intro i hi
      rw [List.get?_map, List.get?_range hi]
      simp only [Option.map_some']
      rw [fillSeqChar_eq]
  · intro bs hbl h4
    subst hbl
    rw [fillSeq, if_neg (by omega)]
    congr 1
    apply List.ext
    intro n
    by_cases hn : n < bs.length
    · rw [List.get?_map, List.get?_range hn, List.get?_map,
        get?_eq_some_getD bs 0 n hn]
      simp only [Option.map_some']
      congr 1
      rw [fillSeqChar_eq, Nat.shiftRight_eq_div_pow, two_pow_two_mul,
        encodeBE_digit bs h4 n hn]
    · rw [List.get?_eq_none.mpr, List.get?_eq_none.mpr]
      · simpa using Nat.le_of_not_lt hn
      · simpa using Nat.le_of_not_lt hn

/-- Witness for C2: at length 2 the word encoding bases c,g decodes back to
the lowercase text cg. -/
theorem fillSeq_decode_spec_witness :
    fillSeq 2 (encodeBE [1, 2]) = some ['c', 'g'] := by
  have h := (fillSeq_decode_spec 2 (by decide)).2 [1, 2] rfl (by decide)
  simpa [baseChar] using h

/-- C7 counterexample: with the junk bit pair above position 2*len set, the
double reverse complement drops it: at w = 4, len = 1 the round trip gives 0,
so the involution does not hold for every 64-bit word. -/
theorem reverse_complement_involution_fails :
    reverse_complement (reverse_complement 4 1) 1 ≠ 4 := by decide

/-- C7 amended: reverse complement is an involution on valid words: for every
len at most 32 and every word w below 4 to the len (no bits above position
2*len), reverse_complement (reverse_complement w len) len equals w. -/
theorem reverse_complement_involution (w len : Nat) (hlen : len ≤ 32)
    (hw : w < 4 ^ len) :
    reverse_complement (reverse_complement w len) len = w := by
  apply eq_of_base4_digits len _ _ (reverse_complement_lt _ _) hw
  intro j hj
  show rcAux len (rcAux len w 0) 0 / 4 ^ j % 4 = w / 4 ^ j % 4
  rw [rcAux_digit len (rcAux len w 0) j hj,
    rcAux_digit len w (len - 1 - j) (by omega)]
  have hidx : len - 1 - (len - 1 - j) = j := by omega
  rw [hidx]
  have hle : w / 4 ^ j % 4 ≤ 3 := by
    have := Nat.mod_lt (w / 4 ^ j) (show 0 < 4 by norm_num)
    omega
  omega

/-- Witness for C7: the round trip at the valid word 2 of length 1. -/
theorem reverse_complement_involution_witness :
    (1 : Nat) ≤ 32 ∧ (2 : Nat) < 4 ^ 1 ∧
      reverse_complement (reverse_complement 2 1) 1 = 2 :=
  ⟨by decide, by decide, reverse_complement_involution 2 1 (by decide) (by decide)⟩

/-- The driver's configuration check (run-rg.go lines 95-104): the only
guard on k and m panics when either exceeds 255 (so that they fit the uint8
variables), otherwise both are accepted and the build is invoked.  The
panic is embedded as none. -/
def validateKM (k m : Nat) : Option (Nat × Nat) :=
  if 255 < k ∨ 255 < m then none else some (k, m)

/-- C1 (code bug): the driver's check accepts the pair k=33, m=15 even
though it violates the required bound k at most 32, so the program does not
refuse to build on every out-of-range pair; the ConfigInvalid validation of
the spec is absent from the code, whose only guard bounds k and m by 255
and carries the self-contradictory panic message that k and m must be at
least 255. -/
theorem validateKM_accepts_out_of_range :
    validateKM 33 15 = some (33, 15) ∧ ¬ (33 ≤ 32) := by
  constructor
  · decide
  · decide

/-- bytes.Split of the read bytes on the newline byte (run-rg.go line 16):
n separator bytes produce n+1 fields; the empty input gives one empty
field. -/
def splitNl : List Nat → List (List Nat)
  | [] => [[]]
  | b :: rest =>
    if b = 10 then [] :: splitNl rest
    else
      match splitNl rest with
      | [] => [[b]]
      | l :: ls => (b :: l) :: ls

theorem splitNl_ne_nil (s : List Nat) : splitNl s ≠ [] := by
  cases s with
  | nil => simp [splitNl]
  | cons b rest =>
      simp only [splitNl]
      split
      · simp
      · split <;> simp

/-- The trailing-newline-trimming loop of lines() (run-rg.go lines 19-21).
Go evaluates the post statement, which indexes position len-1 of the slice,
after the body has shrunk the slice, so when the slice becomes empty the
index is out of range; that panic is embedded as none. -/
def linesLoop (ls : List (List Nat)) (lastLine : List Nat) :
    Option (List (List Nat)) :=
  if h : 0 < ls.length ∧ (lastLine.length = 0 ∨ lastLine = [10]) then
    match ls.dropLast.getLast? with
    | none => none
    | some l => linesLoop ls.dropLast l
  else some ls
termination_by ls.length
decreasing_by
  simp only [List.length_dropLast]
  omega

/-- lines(byteSlice) from run-rg.go lines 15-23: split on newlines, then
trim trailing empty (or lone-newline) fields; the initial index of position
len-1 in the loop header is safe because the split is never empty, and the
loop's panic is embedded as none. -/
def lines (s : List Nat) : Option (List (List Nat)) :=
  match (splitNl s).getLast? with
  | none => none
  | some l => linesLoop (splitNl s) l

theorem mem_of_getLast? {α : Type} {l : List α} {a : α}
    (h : l.getLast? = some a) : a ∈ l := by
  induction l with
  | nil => simp [List.getLast?] at h
  | cons x xs ih =>
      cases xs with
      | nil =>
          simp [List.getLast?] at h
          simp [h]
      | cons y ys =>
          rw [List.getLast?_cons_cons] at h
          exact List.mem_cons_of_mem x (ih h)

theorem linesLoop_none : ∀ (n : Nat) (ls : List (List Nat)), ls.length = n →
    ls ≠ [] → (∀ l ∈ ls, l = []) → ∀ lastLine : List Nat,
    lastLine = [] ∨ lastLine = [10] → linesLoop ls lastLine = none := by
  intro n
  induction n with
  | zero =>
      intro ls hlen hne _ _ _
      exact absurd (List.length_eq_zero.mp hlen) hne
  | succ k ih =>
      intro ls hlen hne hall lastLine hlast
      rw [linesLoop]
      have hcond : 0 < ls.length ∧ (lastLine.length = 0 ∨ lastLine = [10]) := by
        constructor
        · omega
        · rcases hlast with h | h
          · left; simp [h]
          · right; exact h
      rw [dif_pos hcond]
      cases hgl : ls.dropLast.getLast? with
      | none => rfl
      | some l =>
          have hmem : l ∈ ls := by
            have hsub := List.dropLast_sublist ls
            exact hsub.mem (mem_of_getLast? hgl)
          have hlnil : l = [] := hall l hmem
          have hdne : ls.dropLast ≠ [] := by
            intro hempty
            rw [hempty] at hgl
            simp [List.getLast?] at hgl
          have hdlen : ls.dropLast.length = k := by
            simp only [List.length_dropLast]
            omega
          exact ih ls.dropLast hdlen hdne
            (fun x hx => hall x ((List.dropLast_sublist ls).mem hx))
            l (Or.inl hlnil)

/-- C8: on any byte slice all of whose newline-separated fields are empty
(this includes the empty slice and slices consisting only of newline bytes,
such as the contents of an empty .proc reads file), the line-splitting
helper shrinks the slice to empty inside the trailing-newline-trimming loop
and then indexes position len-1 of the empty slice, panicking with an index
out of range instead of returning an empty list. -/
theorem lines_panics_on_all_empty (s : List Nat)
    (h : ∀ l ∈ splitNl s, l = []) : lines s = none := by
  rw [lines]
  cases hgl : (splitNl s).getLast? with
  | none => rfl
  | some l =>
      have hl : l = [] := h l (mem_of_getLast? hgl)
      exact linesLoop_none (splitNl s).length (splitNl s) rfl
        (splitNl_ne_nil s) h l (Or.inl hl)

/-- Witness for C8: the empty reads file panics; its split is the single
empty field. -/
theorem lines_panics_on_all_empty_witness :
    (∀ l ∈ splitNl [], l = []) ∧ lines [] = none := by
  constructor
  · decide
  · exact lines_panics_on_all_empty [] (by decide)

/-- JSON node of the class-tree export (part_000 lines 14-18): a name, a
size and a list of children. -/
inductive JSONNode where
  | mk (name : String) (size : Nat) (children : List JSONNode)

def JSONNode.name : JSONNode → String
  | .mk n _ _ => n

def JSONNode.size : JSONNode → Nat
  | .mk _ s _ => s

def JSONNode.children : JSONNode → List JSONNode
  | .mk _ _ c => c

/-- Class-tree node (the name, ID and children fields of ClassNode that the
JSON export reads); the class tree is frozen after build. -/
inductive CNode where
  | mk (name : String) (id : Nat) (children : List CNode)

def CNode.name : CNode → String
  | .mk n _ _ => n

def CNode.id : CNode → Nat
  | .mk _ i _ => i

def CNode.children : CNode → List CNode
  | .mk _ _ c => c

/-- The lcaID of a 10-byte k-mer record: the 16-bit little-endian value at
byte offset 8, as read through the unsafe.Pointer cast in WriteClassJSON
and WriteMins (part_000 lines 30 and 131). -/
def kmerLcaID (r : List Nat) : Nat := r.getD 8 0 + 256 * r.getD 9 0

/-- The k-mer word of a 10-byte record: the 64-bit little-endian value at
byte offset 0, as read in WriteMins (part_000 line 130). -/
def kmerWord (r : List Nat) : Nat :=
  r.getD 0 0 + 256 * (r.getD 1 0 + 256 * (r.getD 2 0 + 256 * (r.getD 3 0
    + 256 * (r.getD 4 0 + 256 * (r.getD 5 0 + 256 * (r.getD 6 0
    + 256 * r.getD 7 0))))))

/-- classToCount from WriteClassJSON (part_000 lines 28-32): a counting map
built by one increment per stored k-mer record at that record's lcaID. -/
def classToCount (kmers : List (List Nat)) : Nat → Nat :=
  kmers.foldl
    (fun m r => fun id => if id = kmerLcaID r then m id + 1 else m id)
    (fun _ => 0)

/-- jsonRecPopulate from part_000 lines 50-59, as the function taking a
class node to its populated JSON subtree: the size of each produced node is
classToCount at the ID of the class node of the same name.  The Go code
reaches that class node through the ClassNodes map, which is keyed by the
unique node names, so the lookup of a child's name returns that child. -/
def jsonRecPopulate (counts : Nat → Nat) : CNode → JSONNode
  | .mk n i cs => .mk n (counts i) (cs.attach.map (fun c => jsonRecPopulate counts c.1))
termination_by c => sizeOf c
decreasing_by
  have := List.sizeOf_lt_of_mem c.2
  simp only [CNode.mk.sizeOf_spec]
  omega

/-- jsonRecSize from part_000 lines 61-66: adds to every node's size the
recursively updated sizes of its children, bottom up. -/
def jsonRecSize : JSONNode → JSONNode
  | .mk n s cs =>
    let cs2 := cs.attach.map (fun c => jsonRecSize c.1)
    .mk n (s + (cs2.map JSONNode.size).sum) cs2
termination_by t => sizeOf t
decreasing_by
  have := List.sizeOf_lt_of_mem c.2
  simp only [JSONNode.mk.sizeOf_spec]
  omega

/-- deleteLeaves from part_000 lines 68-78: keeps exactly the children that
have children themselves, recursing into the kept ones; the node it is
called on is never removed. -/
def deleteLeaves : JSONNode → JSONNode
  | .mk n s cs =>
    .mk n s (((cs.filter (fun c => !c.children.isEmpty)).attach).map
      (fun c => deleteLeaves c.1))
termination_by t => sizeOf t
decreasing_by
  have h2 := List.sizeOf_lt_of_mem (List.mem_of_mem_filter c.2)
  simp only [JSONNode.mk.sizeOf_spec]
  omega

/-- WriteClassJSON from part_000 lines 20-48, restricted to the JSON value
it marshals: the root node carries the count at literal ID 0, children are
populated recursively, then the cumulative pass runs when useCumSize is
set, then leaf deletion runs when printLeaves is not set. -/
def writeClassJSONTree (kmers : List (List Nat)) (root : CNode)
    (useCumSize printLeaves : Bool) : JSONNode :=
  let counts := classToCount kmers
  let j0 : JSONNode := .mk root.name (counts 0)
    (root.children.attach.map (fun c => jsonRecPopulate counts c.1))
  let j1 := if useCumSize then jsonRecSize j0 else j0
  if printLeaves then j1 else deleteLeaves j1

/-- Specification-side tree of exact sizes, following the words of the
claim: each node of the class tree is mirrored and its size is the count of
stored records whose lcaID equals that exact node's ID. -/
def specTreeExact (counts : Nat → Nat) : CNode → JSONNode
  | .mk n i cs => .mk n (counts i) (cs.attach.map (fun c => specTreeExact counts c.1))
termination_by c => sizeOf c
decreasing_by
  have := List.sizeOf_lt_of_mem c.2
  simp only [CNode.mk.sizeOf_spec]
  omega

/-- Specification-side cumulative size of a class node: its exact count
plus the recursive sum over its children. -/
def cumTreeSize (counts : Nat → Nat) : CNode → Nat
  | .mk _ i cs => counts i + (cs.attach.map (fun c => cumTreeSize counts c.1)).sum
termination_by c => sizeOf c
decreasing_by
  have := List.sizeOf_lt_of_mem c.2
  simp only [CNode.mk.sizeOf_spec]
  omega

/-- Specification-side tree of cumulative sizes, following the words of the
claim: each node's size is its exact count plus the recursive sum of its
children's sizes. -/
def specTreeCum (counts : Nat → Nat) : CNode → JSONNode
  | .mk n i cs =>
    .mk n (cumTreeSize counts (.mk n i cs))
      (cs.attach.map (fun c => specTreeCum counts c.1))
termination_by c => sizeOf c
decreasing_by
  have := List.sizeOf_lt_of_mem c.2
  simp only [CNode.mk.sizeOf_spec]
  omega

/-- All IDs occurring in a class tree, the root first. -/
def cIds : CNode → List Nat
  | .mk _ i cs => i :: (cs.attach.map (fun c => cIds c.1)).join
termination_by c => sizeOf c
decreasing_by
  have := List.sizeOf_lt_of_mem c.2
  simp only [CNode.mk.sizeOf_spec]
  omega

/-- Proper descendant relation on JSON trees: c occurs somewhere strictly
below t. -/
inductive JDesc : JSONNode → JSONNode → Prop where
  | here : ∀ c t, c ∈ t.children → JDesc c t
  | deeper : ∀ c d t, d ∈ t.children → JDesc c d → JDesc c t

theorem jsonRecPopulate_mk (counts : Nat → Nat) (n : String) (i : Nat)
    (cs : List CNode) :
    jsonRecPopulate counts (.mk n i cs)
      = .mk n (counts i) (cs.map (jsonRecPopulate counts)) := by
  rw [jsonRecPopulate]
  simp [List.attach_map_val]

theorem jsonRecSize_mk (n : String) (s : Nat) (cs : List JSONNode) :
    jsonRecSize (.mk n s cs)
      = .mk n (s + ((cs.map jsonRecSize).map JSONNode.size).sum)
          (cs.map jsonRecSize) := by
  rw [jsonRecSize]
  simp [List.attach_map_val]

theorem deleteLeaves_mk (n : String) (s : Nat) (cs : List JSONNode) :
    deleteLeaves (.mk n s cs)
      = .mk n s ((cs.filter (fun c => !c.children.isEmpty)).map deleteLeaves) := by
  rw [deleteLeaves]
  simp [List.attach_map_val]

theorem specTreeExact_mk (counts : Nat → Nat) (n : String) (i : Nat)
    (cs : List CNode) :
    specTreeExact counts (.mk n i cs)
      = .mk n (counts i) (cs.map (specTreeExact counts)) := by
  rw [specTreeExact]
  simp [List.attach_map_val]

theorem cumTreeSize_mk (counts : Nat → Nat) (n : String) (i : Nat)
    (cs : List CNode) :
    cumTreeSize counts (.mk n i cs)
      = counts i + (cs.map (cumTreeSize counts)).sum := by
  rw [cumTreeSize]
  simp [List.attach_map_val]

theorem specTreeCum_mk (counts : Nat → Nat) (n : String) (i : Nat)
    (cs : List CNode) :
    specTreeCum counts (.mk n i cs)
      = .mk n (cumTreeSize counts (.mk n i cs)) (cs.map (specTreeCum counts)) := by
  rw [specTreeCum]
  simp [List.attach_map_val]

theorem cIds_mk (n : String) (i : Nat) (cs : List CNode) :
    cIds (.mk n i cs) = i :: (cs.map cIds).join := by
  rw [cIds]
  simp [List.attach_map_val]

theorem classToCount_eq_countP (kmers : List (List Nat)) (id : Nat) :
    classToCount kmers id = kmers.countP (fun r => kmerLcaID r == id) := by
  have haux : ∀ (l : List (List Nat)) (f : Nat → Nat) (j : Nat),
      (l.foldl (fun m r => fun x => if x = kmerLcaID r then m x + 1 else m x) f) j
        = f j + l.countP (fun r => kmerLcaID r == j) := by
    intro l
    induction l with
    | nil => intro f j; simp
    | cons r rs ih =>
        intro f j
        rw [List.foldl_cons, ih, List.countP_cons]
        by_cases h : j = kmerLcaID r
        · subst h
          simp
          omega
        · simp [h, beq_iff_eq, Ne.symm h]
  simpa using haux kmers (fun _ => 0) id

theorem jsonRecPopulate_eq_spec (counts : Nat → Nat) : ∀ c : CNode,
    jsonRecPopulate counts c = specTreeExact counts c
  | .mk n i cs => by
    rw [jsonRecPopulate_mk, specTreeExact_mk]
    have hc : ∀ x ∈ cs, jsonRecPopulate counts x = specTreeExact counts x :=
      fun x hx => jsonRecPopulate_eq_spec counts x
    rw [List.map_congr_left hc]
termination_by c => sizeOf c
decreasing_by
  have := List.sizeOf_lt_of_mem hx
  simp only [CNode.mk.sizeOf_spec]
  omega

theorem specTreeCum_size (counts : Nat → Nat) (c : CNode) :
    (specTreeCum counts c).size = cumTreeSize counts c := by
  cases c with
  | mk n i cs =>
      rw [specTreeCum_mk]
      rfl

theorem jsonRecSize_spec (counts : Nat → Nat) : ∀ c : CNode,
    jsonRecSize (specTreeExact counts c) = specTreeCum counts c
  | .mk n i cs => by
    rw [specTreeExact_mk, jsonRecSize_mk, specTreeCum_mk]
    have hc : ∀ x ∈ cs,
        (jsonRecSize ∘ specTreeExact counts) x = specTreeCum counts x :=
      fun x hx => jsonRecSize_spec counts x
    have hs : ∀ x ∈ cs,
        (JSONNode.size ∘ jsonRecSize ∘ specTreeExact counts) x
          = cumTreeSize counts x := by
      intro x hx
      show JSONNode.size ((jsonRecSize ∘ specTreeExact counts) x) = _
      rw [hc x hx, specTreeCum_size]
    simp only [List.map_map]
    rw [List.map_congr_left hc, List.map_congr_left hs, cumTreeSize_mk]
termination_by c => sizeOf c
decreasing_by
  have := List.sizeOf_lt_of_mem hx
  simp only [CNode.mk.sizeOf_spec]
  omega

theorem writeClassJSONTree_exact_eq (kmers : List (List Nat)) (root : CNode)
    (hroot : root.id = 0) :
    writeClassJSONTree kmers root false true
      = specTreeExact (classToCount kmers) root := by
  cases root with
  | mk n i cs =>
      have hi : i = 0 := hroot
      subst hi
      simp only [writeClassJSONTree, Bool.false_eq_true, if_false, if_true,
        List.attach_map_val, CNode.name, CNode.children]
      rw [specTreeExact_mk,
        List.map_congr_left (fun x _ => jsonRecPopulate_eq_spec (classToCount kmers) x)]

theorem writeClassJSONTree_cum_eq (kmers : List (List Nat)) (root : CNode)
    (hroot : root.id = 0) :
    writeClassJSONTree kmers root true true
      = specTreeCum (classToCount kmers) root := by
  cases root with
  | mk n i cs =>
      have hi : i = 0 := hroot
      subst hi
      simp only [writeClassJSONTree, if_true, List.attach_map_val,
        CNode.name, CNode.children]
      have hj0 : JSONNode.mk n (classToCount kmers 0)
            (cs.map (jsonRecPopulate (classToCount kmers)))
          = specTreeExact (classToCount kmers) (.mk n 0 cs) := by
        rw [specTreeExact_mk,
          List.map_congr_left (fun x _ => jsonRecPopulate_eq_spec (classToCount kmers) x)]
      rw [hj0, jsonRecSize_spec]

/-- C4: with leaves printed, the JSON class-tree export mirrors the class
tree; each node's size is the count of stored 10-byte k-mer records whose
lcaID (16-bit value at byte offset 8) equals that node's ID when the
cumulative flag is off, and that count plus the recursive sum of its
children's sizes when the flag is on.  The root size is the count at
literal ID 0, which is the root's ID by the tree invariant. -/
theorem writeClassJSON_sizes (kmers : List (List Nat)) (root : CNode)
    (useCumSize : Bool) (hroot : root.id = 0) :
    writeClassJSONTree kmers root useCumSize true
      = if useCumSize then specTreeCum (classToCount kmers) root
        else specTreeExact (classToCount kmers) root := by
  cases useCumSize with
  | false =>
      rw [if_neg (by simp)]
      exact writeClassJSONTree_exact_eq kmers root hroot
  | true =>
      rw [if_pos rfl]
      exact writeClassJSONTree_cum_eq kmers root hroot

/-- Witness for C4: a concrete two-node tree with one stored record labeled
with the child's ID; cumulative export gives root size 1. -/
theorem writeClassJSON_sizes_witness :
    (CNode.mk "root" 0 [CNode.mk "A" 1 []]).id = 0 ∧
    writeClassJSONTree [[0, 0, 0, 0, 0, 0, 0, 0, 1, 0]]
        (CNode.mk "root" 0 [CNode.mk "A" 1 []]) true true
      = specTreeCum (classToCount [[0, 0, 0, 0, 0, 0, 0, 0, 1, 0]])
          (CNode.mk "root" 0 [CNode.mk "A" 1 []]) := by
  constructor
  · rfl
  · have h := writeClassJSON_sizes [[0, 0, 0, 0, 0, 0, 0, 0, 1, 0]]
      (CNode.mk "root" 0 [CNode.mk "A" 1 []]) true rfl
    simpa using h

theorem cumTreeSize_eq_sum (counts : Nat → Nat) : ∀ c : CNode,
    cumTreeSize counts c = ((cIds c).map counts).sum
  | .mk n i cs => by
    rw [cumTreeSize_mk, cIds_mk]
    simp only [List.map_cons, List.sum_cons]
    congr 1
    rw [List.map_join, List.sum_join, List.map_map, List.map_map]
    congr 1
    apply List.map_congr_left
    intro x hx
    exact cumTreeSize_eq_sum counts x
termination_by c => sizeOf c
decreasing_by
  have := List.sizeOf_lt_of_mem hx
  simp only [CNode.mk.sizeOf_spec]
  omega

theorem sum_map_add {α : Type} (l : List α) (f g : α → Nat) :
    (l.map (fun x => f x + g x)).sum = (l.map f).sum + (l.map g).sum := by
  induction l with
  | nil => simp
  | cons a as ih =>
      simp only [List.map_cons, List.sum_cons, ih]
      omega

theorem sum_indicator_zero (ids : List Nat) (x : Nat) (hx : x ∉ ids) :
    (ids.map (fun id => if x == id then 1 else 0)).sum = 0 := by
  induction ids with
  | nil => simp
  | cons a as ih =>
      have hxa : ¬ x = a := fun h => hx (h ▸ List.mem_cons_self a as)
      have hxas : x ∉ as := fun h => hx (List.mem_cons_of_mem a h)
      have h2 := ih hxas
      simp only [beq_iff_eq] at h2
      simp only [List.map_cons, List.sum_cons, beq_iff_eq, if_neg hxa, h2]

theorem sum_indicator_one (ids : List Nat) (x : Nat) (hnodup : ids.Nodup)
    (hx : x ∈ ids) :
    (ids.map (fun id => if x == id then 1 else 0)).sum = 1 := by
  induction ids with
  | nil => simp at hx
  | cons a as ih =>
      rcases List.nodup_cons.mp hnodup with ⟨hna, hnd⟩
      rcases List.mem_cons.mp hx with h | h
      · subst h
        have hxas : x ∉ as := hna
        have h0 := sum_indicator_zero as x hxas
        simp only [beq_iff_eq] at h0
        simp [h0]
      · have hxa : ¬ x = a := fun he => hna (he ▸ h)
        have h2 := ih hnd h
        simp only [beq_iff_eq] at h2
        simp only [List.map_cons, List.sum_cons, beq_iff_eq, if_neg hxa, h2]

theorem sum_counts_eq_length (ids : List Nat) (hnodup : ids.Nodup) :
    ∀ kmers : List (List Nat), (∀ r ∈ kmers, kmerLcaID r ∈ ids) →
    (ids.map (fun id => kmers.countP (fun r => kmerLcaID r == id))).sum
      = kmers.length := by
  intro kmers
  induction kmers with
  | nil => intro _; simp
  | cons r rs ih =>
      intro hmem
      have hr : kmerLcaID r ∈ ids := hmem r (List.mem_cons_self r rs)
      have hrs : ∀ x ∈ rs, kmerLcaID x ∈ ids :=
        fun x hx => hmem x (List.mem_cons_of_mem r hx)
      have hsplit : ∀ id : Nat,
          (r :: rs).countP (fun q => kmerLcaID q == id)
            = rs.countP (fun q => kmerLcaID q == id)
              + (if kmerLcaID r == id then 1 else 0) := by
        intro id
        rw [List.countP_cons]
      rw [List.map_congr_left (fun id _ => hsplit id), sum_map_add, ih hrs,
        sum_indicator_one ids (kmerLcaID r) hnodup hr, List.length_cons]

/-- C9: with the cumulative flag on, the root size of the JSON class-tree
export equals the total number of stored k-mer records, provided the tree
IDs are pairwise distinct, every record's lcaID is the ID of some tree
node, and the root carries ID 0 (the code reads the root count at literal
ID 0): the per-node counts partition the records and the recursive
summation preserves the total. -/
theorem writeClassJSON_cum_root_total (kmers : List (List Nat))
    (root : CNode) (hroot : root.id = 0) (hnodup : (cIds root).Nodup)
    (hmem : ∀ r ∈ kmers, kmerLcaID r ∈ cIds root) :
    (writeClassJSONTree kmers root true true).size = kmers.length := by
  rw [writeClassJSONTree_cum_eq kmers root hroot, specTreeCum_size,
    cumTreeSize_eq_sum]
  rw [List.map_congr_left
    (fun id _ => classToCount_eq_countP kmers id)]
  exact sum_counts_eq_length (cIds root) hnodup kmers hmem

/-- Witness for C9: a two-node tree and two records, one labeled with the
root ID 0 and one with the child ID 1; the cumulative root size is 2. -/
theorem writeClassJSON_cum_root_total_witness :
    (CNode.mk "root" 0 [CNode.mk "A" 1 []]).id = 0
    ∧ (cIds (CNode.mk "root" 0 [CNode.mk "A" 1 []])).Nodup
    ∧ (∀ r ∈ [[0, 0, 0, 0, 0, 0, 0, 0, 0, 0], [0, 0, 0, 0, 0, 0, 0, 0, 1, 0]],
        kmerLcaID r ∈ cIds (CNode.mk "root" 0 [CNode.mk "A" 1 []]))
    ∧ (writeClassJSONTree
        [[0, 0, 0, 0, 0, 0, 0, 0, 0, 0], [0, 0, 0, 0, 0, 0, 0, 0, 1, 0]]
        (CNode.mk "root" 0 [CNode.mk "A" 1 []]) true true).size = 2 := by
  have hids : cIds (CNode.mk "root" 0 [CNode.mk "A" 1 []]) = [0, 1] := by
    rw [cIds_mk]
    simp [cIds_mk]
  have hmem : ∀ r ∈ [[0, 0, 0, 0, 0, 0, 0, 0, 0, 0],
      [0, 0, 0, 0, 0, 0, 0, 0, 1, 0]],
      kmerLcaID r ∈ cIds (CNode.mk "root" 0 [CNode.mk "A" 1 []]) := by
    intro r hr
    rw [hids]
    rcases List.mem_cons.mp hr with h | h
    · subst h; decide
    · have h2 : r = [0, 0, 0, 0, 0, 0, 0, 0, 1, 0] := by simpa using h
      subst h2; decide
  refine ⟨rfl, ?_, hmem, ?_⟩
  · rw [hids]; decide
  · exact writeClassJSON_cum_root_total _ _ rfl (by rw [hids]; decide) hmem


theorem notEmpty_iff (l : List JSONNode) : (!l.isEmpty) = true ↔ l ≠ [] := by
  cases l <;> simp

theorem JDesc_children_ne_nil {c t : JSONNode} (h : JDesc c t) :
    t.children ≠ [] := by
  cases h with
  | here _ hmem => intro he; rw [he] at hmem; simp at hmem
  | deeper _ _ hmem _ => intro he; rw [he] at hmem; simp at hmem

theorem JDesc_deleteLeaves_of : ∀ {c t : JSONNode}, JDesc c t →
    (c.children ≠ [] → JDesc (deleteLeaves c) (deleteLeaves t)) := by
  intro c t h
  induction h with
  | here b hmem =>
      intro hc
      cases b with
      | mk n s cs =>
          apply JDesc.here
          rw [deleteLeaves_mk]
          simp only [JSONNode.children] at hmem ⊢
          apply List.mem_map_of_mem
          exact List.mem_filter.mpr ⟨hmem, (notEmpty_iff _).mpr hc⟩
  | deeper e b hmem hde ih =>
      intro hc
      have hene : e.children ≠ [] := JDesc_children_ne_nil hde
      cases b with
      | mk n s cs =>
          refine JDesc.deeper (deleteLeaves c) (deleteLeaves e) _ ?_ (ih hc)
          rw [deleteLeaves_mk]
          simp only [JSONNode.children] at hmem ⊢
          apply List.mem_map_of_mem
          exact List.mem_filter.mpr ⟨hmem, (notEmpty_iff _).mpr hene⟩

theorem deleteLeaves_desc_iff : ∀ (t c : JSONNode),
    JDesc c (deleteLeaves t)
      ↔ ∃ d, JDesc d t ∧ d.children ≠ [] ∧ c = deleteLeaves d
  | .mk n s cs, c => by
    constructor
    · intro h
      rw [deleteLeaves_mk] at h
      cases h with
      | here _ hmem =>
          simp only [JSONNode.children] at hmem
          rcases List.mem_map.mp hmem with ⟨d, hd, hcd⟩
          rcases List.mem_filter.mp hd with ⟨hdmem, hdne⟩
          refine ⟨d, JDesc.here d (.mk n s cs) ?_, (notEmpty_iff _).mp hdne,
            hcd.symm⟩
          simpa [JSONNode.children] using hdmem
      | deeper e _ hmem hde =>
          simp only [JSONNode.children] at hmem
          rcases List.mem_map.mp hmem with ⟨d0, hd0, hed0⟩
          rcases List.mem_filter.mp hd0 with ⟨hd0mem, hd0ne⟩
          have hde2 : JDesc c (deleteLeaves d0) := by rw [hed0]; exact hde
          rcases (deleteLeaves_desc_iff d0 c).mp hde2 with ⟨d, hdd0, hdne, hcd⟩
          refine ⟨d, JDesc.deeper d d0 (.mk n s cs) ?_ hdd0, hdne, hcd⟩
          simpa [JSONNode.children] using hd0mem
    · rintro ⟨d, hdt, hdne, rfl⟩
      exact JDesc_deleteLeaves_of hdt hdne
termination_by t c => sizeOf t
decreasing_by
  have := List.sizeOf_lt_of_mem (List.mem_of_mem_filter hd0)
  simp only [JSONNode.mk.sizeOf_spec]
  omega

/-- C10 counterexample: with print-leaves off, on the chain root, a, b the
export drops only the input leaf b; the retained node a then has no
children, so the output tree still contains a leaf node at depth 1,
refuting the removal of every leaf node of the output tree. -/
theorem writeClassJSON_prune_keeps_leaf :
    JDesc (JSONNode.mk "a" 0 [])
      (writeClassJSONTree []
        (CNode.mk "root" 0 [CNode.mk "a" 1 [CNode.mk "b" 2 []]]) false false)
    ∧ (JSONNode.mk "a" 0 []).children = [] := by
  have hout : writeClassJSONTree []
      (CNode.mk "root" 0 [CNode.mk "a" 1 [CNode.mk "b" 2 []]]) false false
      = JSONNode.mk "root" 0 [JSONNode.mk "a" 0 []] := by
    simp [writeClassJSONTree, jsonRecPopulate_mk, deleteLeaves_mk,
      classToCount, JSONNode.children, CNode.children, CNode.name,
      List.filter]
  rw [hout]
  constructor
  · apply JDesc.here
    simp [JSONNode.children]
  · rfl

/-- C10 amended: when the print-leaves flag is off, the export equals
deleteLeaves applied to the sized tree, so deletion runs after the
cumulative-size pass and retained sizes still include the deleted leaves'
counts; deleteLeaves keeps the name and size of the node it rewrites, and
the proper descendants of its output are exactly the prunings of those
proper descendants of its input that had children before deletion: every
node that was a leaf before deletion is removed, at every depth, while a
retained node may itself become a leaf of the output tree. -/
theorem writeClassJSON_prune (kmers : List (List Nat)) (root : CNode)
    (useCumSize : Bool) :
    writeClassJSONTree kmers root useCumSize false
      = deleteLeaves (writeClassJSONTree kmers root useCumSize true)
    ∧ (∀ t : JSONNode, (deleteLeaves t).name = t.name
        ∧ (deleteLeaves t).size = t.size)
    ∧ (∀ t c : JSONNode, JDesc c (deleteLeaves t)
        ↔ ∃ d, JDesc d t ∧ d.children ≠ [] ∧ c = deleteLeaves d) := by
  refine ⟨?_, ?_, deleteLeaves_desc_iff⟩
  · rfl
  · intro t
    cases t with
    | mk n s cs =>
        rw [deleteLeaves_mk]
        exact ⟨rfl, rfl⟩

/-- The inner record loop of WriteMins (part_000 lines 129-137): for each
10-byte record it decodes the k-mer word into the k-long buffer and writes
a tab, the buffer, a space, the class node name at the record's lcaID, and
a newline.  The writer state is the accumulated output text (as a char
list); a fillSeq panic propagates as none. -/
def writeKmersGo (k : Nat) (nodesByID : Nat → List Char) :
    List (List Nat) → List Char → Option (List Char)
  | [], acc => some acc
  | r :: rest, acc =>
    match fillSeq k (kmerWord r) with
    | none => none
    | some kbuf => writeKmersGo k nodesByID rest
        (acc ++ ['\t'] ++ kbuf ++ [' '] ++ nodesByID (kmerLcaID r) ++ ['\n'])

/-- The bucket loop of WriteMins (part_000 lines 122-138): for each bucket
it decodes the minimizer into the m-long buffer, writes the header marker,
the buffer and a newline, then writes the bucket's records. -/
def writeMinsGo (k m : Nat) (nodesByID : Nat → List Char) :
    List (Nat × List (List Nat)) → List Char → Option (List Char)
  | [], acc => some acc
  | (mn, kms) :: rest, acc =>
    match fillSeq m mn with
    | none => none
    | some mbuf =>
      match writeKmersGo k nodesByID kms (acc ++ ['>'] ++ mbuf ++ ['\n']) with
      | none => none
      | some acc2 => writeMinsGo k m nodesByID rest acc2

/-- WriteMins (part_000 lines 104-140) restricted to the text it writes:
the dump of the minimizer map, one bucket at a time, starting from the
empty writer. -/
def WriteMins (k m : Nat) (nodesByID : Nat → List Char)
    (minMap : List (Nat × List (List Nat))) : Option (List Char) :=
  writeMinsGo k m nodesByID minMap []

/-- Specification-side text of one k-mer record line, following the words
of the claim: a tab, the decoded k-mer, a space, the name of the class-tree
node whose ID is the record's lcaID, a newline. -/
def specKmerLine (k : Nat) (nodesByID : Nat → List Char) (r : List Nat) :
    List Char :=
  '\t' :: ((List.range k).map (fillSeqChar (kmerWord r) k) ++ ' '
    :: (nodesByID (kmerLcaID r) ++ ['\n']))

/-- Specification-side text of one minimizer bucket, following the words of
the claim: a header line of the marker followed by the decoded m-mer text,
then one line per record of the bucket. -/
def specBucket (k m : Nat) (nodesByID : Nat → List Char)
    (b : Nat × List (List Nat)) : List Char :=
  '>' :: ((List.range m).map (fillSeqChar b.1 m) ++ '\n'
    :: (b.2.map (specKmerLine k nodesByID)).join)

theorem fillSeqChar_lowercase (seqInt len i : Nat) :
    fillSeqChar seqInt len i ∈ (['a', 'c', 'g', 't'] : List Char) := by
  rw [fillSeqChar]
  split
  · simp
  · split
    · simp
    · split <;> simp

theorem writeKmersGo_eq (k : Nat) (hk : k ≤ 32) (f : Nat → List Char) :
    ∀ (rs : List (List Nat)) (acc : List Char),
    writeKmersGo k f rs acc = some (acc ++ (rs.map (specKmerLine k f)).join) := by
  intro rs
  induction rs with
  | nil => intro acc; simp [writeKmersGo]
  | cons r rest ih =>
      intro acc
      rw [writeKmersGo, fillSeq, if_neg (by omega)]
      dsimp only
      rw [ih]
      congr 1
      simp [specKmerLine]

theorem writeMinsGo_eq (k m : Nat) (hk : k ≤ 32) (hm : m ≤ 32)
    (f : Nat → List Char) :
    ∀ (bs : List (Nat × List (List Nat))) (acc : List Char),
    writeMinsGo k m f bs acc = some (acc ++ (bs.map (specBucket k m f)).join) := by
  intro bs
  induction bs with
  | nil => intro acc; simp [writeMinsGo]
  | cons b rest ih =>
      intro acc
      cases b with
      | mk mn kms =>
          rw [writeMinsGo, fillSeq, if_neg (by omega)]
          dsimp only
          rw [writeKmersGo_eq k hk f]
          dsimp only
          rw [ih]
          congr 1
          simp [specBucket]

/-- C3: when k and m fit the 32-base bound, the human-readable dump writes,
for every minimizer bucket of the map, one header line of the marker
followed by the decoded m-mer text, then per record one line of a tab, the
decoded k-mer, a space, and the class node name at the record's lcaID; and
every decoded nucleotide is one of the lowercase letters a, c, g, t. -/
theorem WriteMins_format (k m : Nat) (hk : k ≤ 32) (hm : m ≤ 32)
    (nodesByID : Nat → List Char) (minMap : List (Nat × List (List Nat))) :
    WriteMins k m nodesByID minMap
      = some ((minMap.map (specBucket k m nodesByID)).join)
    ∧ (∀ seqInt len i : Nat,
        fillSeqChar seqInt len i ∈ (['a', 'c', 'g', 't'] : List Char)) := by
  constructor
  · rw [WriteMins, writeMinsGo_eq k m hk hm]
    simp
  · intro seqInt len i
    exact fillSeqChar_lowercase seqInt len i

/-- Witness for C3: one bucket of one record dumped at k=2, m=1; the output
is the header of the decoded minimizer followed by the record line. -/
theorem WriteMins_format_witness :
    WriteMins 2 1 (fun _ => ['A']) [(0, [[3, 0, 0, 0, 0, 0, 0, 0, 1, 0]])]
      = some ['>', 'a', '\n', '\t', 'a', 't', ' ', 'A', '\n'] := by
  have h := (WriteMins_format 2 1 (by decide) (by decide) (fun _ => ['A'])
    [(0, [[3, 0, 0, 0, 0, 0, 0, 0, 1, 0]])]).1
  rw [h]
  decide

/-- Modelled from the spec: the observable output of the classification
pipeline GetReadClassChan (section 4.G concurrency contract), whose source
is absent from the snapshot.  The dispatcher splits the read batch among
workers; each worker maps the pure classifier over its share and emits one
pair per read; the output channel carries the per-worker outputs in some
arbitrary order, so any actual emission order is a permutation of this
concatenation. -/
def GetReadClassChan {α β : Type} (classify : α → Option β)
    (batches : List (List α)) : List (α × Option β) :=
  (batches.map (List.map (fun r => (r, classify r)))).join

/-- C5 (spec-modelled): for every dispatch of the input reads into worker
batches (whose concatenation is a permutation of the input) and every
emission order of the output channel, the pipeline emits exactly one pair
per input read: the multiset of first components equals the multiset of
reads, none dropped and none duplicated, and every pair carries the
classification of its read; the emission order itself is not preserved. -/
theorem GetReadClassChan_complete {α β : Type} [DecidableEq α]
    (classify : α → Option β) (reads : List α) (batches : List (List α))
    (hb : batches.join.Perm reads) (out : List (α × Option β))
    (hout : out.Perm (GetReadClassChan classify batches)) :
    out.length = reads.length
    ∧ (∀ r : α, (out.map Prod.fst).count r = reads.count r)
    ∧ (∀ p ∈ out, p.2 = classify p.1) := by
  have hjoin : GetReadClassChan classify batches
      = batches.join.map (fun r => (r, classify r)) := by
    rw [GetReadClassChan]
    show (List.map (List.map fun r => (r, classify r)) batches).flatten
        = List.map (fun r => (r, classify r)) batches.flatten
    exact (List.map_flatten _ _).symm
  have hperm : out.Perm (reads.map (fun r => (r, classify r))) := by
    rw [hjoin] at hout
    exact hout.trans (hb.map _)
  refine ⟨?_, ?_, ?_⟩
  · rw [hperm.length_eq, List.length_map]
  · intro r
    have h1 := (hperm.map Prod.fst).count_eq r
    rw [h1, List.map_map]
    have hcomp : (Prod.fst ∘ fun q : α => (q, classify q)) = id := rfl
    rw [hcomp, List.map_id]
  · intro p hp
    have hmem : p ∈ reads.map (fun r => (r, classify r)) := hperm.mem_iff.mp hp
    rcases List.mem_map.mp hmem with ⟨r, _, hpr⟩
    rw [← hpr]

/-- Witness for C5: two reads dispatched to two workers in swapped order
and emitted reordered; the theorem yields the length equality. -/
theorem GetReadClassChan_complete_witness :
    (([[2], [1]] : List (List Nat)).join.Perm [1, 2])
    ∧ ([(1, some 7), (2, (none : Option Nat))].Perm
        (GetReadClassChan (fun r => if r = 1 then some 7 else none) [[2], [1]]))
    ∧ ([(1, some 7), (2, (none : Option Nat))].length = ([1, 2] : List Nat).length) := by
  refine ⟨by decide, by decide, ?_⟩
  exact (GetReadClassChan_complete (fun r => if r = 1 then some 7 else none)
    [1, 2] [[2], [1]] (by decide) [(1, some 7), (2, none)] (by decide)).1

/-- Modelled from the spec: the byte-to-base table of encode_kmer (section
4.A): only the eight ACGT letters are accepted; any other byte (including
the letter N) is rejected.  The codec source file is absent from the
snapshot. -/
def baseVal (ch : Char) : Option Nat :=
  if ch = 'a' ∨ ch = 'A' then some 0
  else if ch = 'c' ∨ ch = 'C' then some 1
  else if ch = 'g' ∨ ch = 'G' then some 2
  else if ch = 't' ∨ ch = 'T' then some 3
  else none

/-- Base values of a window, failing on the first rejected byte. -/
def encodeVals : List Char → Option (List Nat)
  | [] => some []
  | ch :: rest =>
    match baseVal ch, encodeVals rest with
    | some v, some vs => some (v :: vs)
    | _, _ => none

/-- Modelled from the spec: encode_kmer (section 4.A): any non-ACGT byte
fails the whole k-mer, no partial credit. -/
def encode_kmer (s : List Char) : Option Nat :=
  (encodeVals s).map encodeBE

/-- Modelled from the spec: canonical(word, len) of section 4.A. -/
def canonical (w len : Nat) : Nat := min w (reverse_complement w len)

/-- All k-long windows of a read (spec section 4.G step 2): for a read
shorter than k there is no window. -/
def kWindows (k : Nat) (read : List Char) : List (List Char) :=
  if read.length < k then []
  else (List.range (read.length - k + 1)).map (fun i => (read.drop i).take k)

/-- The accumulator step of the per-read LCA fold (spec section 4.G): the
first hit seeds the accumulator, later hits are joined through the class
tree. -/
def lcaAcc {C : Type} (lca : C → C → C) (acc : Option C) (c : C) : C :=
  match acc with
  | none => c
  | some a => lca a c

/-- The plain left fold of hits through the tree join, with no early
exit; used to state the root-fold hypothesis of the claim. -/
def lcaFold {C : Type} (lca : C → C → C) : List C → Option C → Option C
  | [], acc => acc
  | c :: cs, acc => lcaFold lca cs (some (lcaAcc lca acc c))

/-- The index hits of a read, in window order: skipped or missing windows
contribute nothing. -/
def readHits {C : Type} (k : Nat) (probe : Nat → Option C)
    (read : List Char) : List C :=
  (kWindows k read).filterMap
    (fun w => (encode_kmer w).bind (fun word => probe (canonical word k)))

/-- Modelled from the spec: the window loop of the read classifier (section
4.G): ambiguous windows and index misses are skipped, a hit updates the
accumulator through the class-tree join, and an accumulator equal to the
root terminates early with unclassified. -/
def classifyGo {C : Type} [DecidableEq C] (k : Nat) (probe : Nat → Option C)
    (lca : C → C → C) (root : C) : List (List Char) → Option C → Option C
  | [], acc => acc
  | w :: ws, acc =>
    match encode_kmer w with
    | none => classifyGo k probe lca root ws acc
    | some word =>
      match probe (canonical word k) with
      | none => classifyGo k probe lca root ws acc
      | some c =>
        if lcaAcc lca acc c = root then none
        else classifyGo k probe lca root ws (some (lcaAcc lca acc c))

/-- Modelled from the spec: the read classifier of section 4.G, a total
function from a read to an optional class. -/
def classifyRead {C : Type} [DecidableEq C] (k : Nat)
    (probe : Nat → Option C) (lca : C → C → C) (root : C)
    (read : List Char) : Option C :=
  classifyGo k probe lca root (kWindows k read) none

theorem encodeVals_none (s : List Char) (h : ∃ ch ∈ s, baseVal ch = none) :
    encodeVals s = none := by
  induction s with
  | nil => simp at h
  | cons ch rest ih =>
      rcases h with ⟨c0, hc0, hbv⟩
      rcases List.mem_cons.mp hc0 with he | he
      · subst he
        rw [encodeVals, hbv]
      · rw [encodeVals, ih ⟨c0, he, hbv⟩]
        cases baseVal ch <;> rfl

theorem classifyGo_skip {C : Type} [DecidableEq C] (k : Nat)
    (probe : Nat → Option C) (lca : C → C → C) (root : C) :
    ∀ (ws : List (List Char)) (acc : Option C),
    (∀ w ∈ ws, (encode_kmer w).bind (fun word => probe (canonical word k)) = none) →
    classifyGo k probe lca root ws acc = acc := by
  intro ws
  induction ws with
  | nil => intro acc _; rfl
  | cons w rest ih =>
      intro acc h
      have hw := h w (List.mem_cons_self w rest)
      have hrest : ∀ x ∈ rest,
          (encode_kmer x).bind (fun word => probe (canonical word k)) = none :=
        fun x hx => h x (List.mem_cons_of_mem w hx)
      rw [classifyGo]
      cases he : encode_kmer w with
      | none =>
          dsimp only
          exact ih acc hrest
      | some word =>
          dsimp only
          rw [he] at hw
          simp only [Option.some_bind] at hw
          rw [hw]
          dsimp only
          exact ih acc hrest

theorem classifyGo_fold_root {C : Type} [DecidableEq C] (k : Nat)
    (probe : Nat → Option C) (lca : C → C → C) (root : C) :
    ∀ (ws : List (List Char)) (acc : Option C), acc ≠ some root →
    lcaFold lca (ws.filterMap
      (fun w => (encode_kmer w).bind (fun word => probe (canonical word k)))) acc
      = some root →
    classifyGo k probe lca root ws acc = none := by
  intro ws
  induction ws with
  | nil =>
      intro acc hne hfold
      rw [List.filterMap_nil, lcaFold] at hfold
      exact absurd hfold hne
  | cons w rest ih =>
      intro acc hne hfold
      rw [List.filterMap_cons] at hfold
      rw [classifyGo]
      cases he : encode_kmer w with
      | none =>
          dsimp only
          rw [he] at hfold
          simp only [Option.none_bind] at hfold
          exact ih acc hne hfold
      | some word =>
          dsimp only
          rw [he] at hfold
          simp only [Option.some_bind] at hfold
          cases hp : probe (canonical word k) with
          | none =>
              dsimp only
              rw [hp] at hfold
              exact ih acc hne hfold
          | some c =>
              dsimp only
              rw [hp] at hfold
              rw [lcaFold] at hfold
              by_cases hr : lcaAcc lca acc c = root
              · rw [if_pos hr]
              · rw [if_neg hr]
                exact ih (some (lcaAcc lca acc c))
                  (fun hc => hr (Option.some.inj hc)) hfold

/-- C6 (spec-modelled): the read classifier is a total function into an
optional class and never produces an error: for every read shorter than k,
every read all of whose k-windows contain a non-ACGT byte, every read none
of whose encoded windows hits the index, and every read whose per-hit LCA
fold reaches the root, the result is unclassified (none). -/
theorem classifyRead_unclassified {C : Type} [DecidableEq C] (k : Nat)
    (probe : Nat → Option C) (lca : C → C → C) (root : C)
    (read : List Char) :
    (read.length < k → classifyRead k probe lca root read = none)
    ∧ ((∀ w ∈ kWindows k read, ∃ ch ∈ w, baseVal ch = none) →
        classifyRead k probe lca root read = none)
    ∧ ((∀ w ∈ kWindows k read, ∀ word, encode_kmer w = some word →
        probe (canonical word k) = none) →
        classifyRead k probe lca root read = none)
    ∧ (lcaFold lca (readHits k probe read) none = some root →
        classifyRead k probe lca root read = none) := by
  refine ⟨?_, ?_, ?_, ?_⟩
  · intro hshort
    rw [classifyRead, kWindows, if_pos hshort]
    rfl
  · intro hambig
    rw [classifyRead]
    apply classifyGo_skip
    intro w hw
    have : encodeVals w = none := encodeVals_none w (hambig w hw)
    rw [encode_kmer, this]
    rfl
  · intro hmiss
    rw [classifyRead]
    apply classifyGo_skip
    intro w hw
    cases he : encode_kmer w with
    | none => rfl
    | some word =>
        simp only [Option.some_bind]
        exact hmiss w hw word he
  · intro hfold
    rw [classifyRead]
    exact classifyGo_fold_root k probe lca root (kWindows k read) none
      (by simp) hfold

/-- Witness for C6: a concrete classifier over Nat classes with root 0, at
k = 2: a short read, an all-ambiguous read, a read with no index hits, and
a read whose two hits join to the root all come out unclassified. -/
theorem classifyRead_unclassified_witness :
    classifyRead 2 (fun _ => (none : Option Nat)) (fun _ _ => 0) 0 ['a'] = none
    ∧ classifyRead 2 (fun _ => (none : Option Nat)) (fun _ _ => 0) 0
        ['a', 'n', 'g'] = none
    ∧ classifyRead 2 (fun _ => (none : Option Nat)) (fun _ _ => 0) 0
        ['a', 'a', 'a'] = none
    ∧ classifyRead 2
        (fun w => if w = 1 then some 5 else if w = 4 then some 6 else none)
        (fun _ _ => 0) 0 ['a', 'c', 'a'] = none := by
  refine ⟨?_, ?_, ?_, ?_⟩
  · exact (classifyRead_unclassified 2 (fun _ => none) (fun _ _ => 0) 0
      ['a']).1 (by decide)
  · exact (classifyRead_unclassified 2 (fun _ => none) (fun _ _ => 0) 0
      ['a', 'n', 'g']).2.1 (by decide)
  · exact (classifyRead_unclassified 2 (fun _ => none) (fun _ _ => 0) 0
      ['a', 'a', 'a']).2.2.1 (by intro w hw word he; rfl)
  · exact (classifyRead_unclassified 2
      (fun w => if w = 1 then some 5 else if w = 4 then some 6 else none)
      (fun _ _ => 0) 0 ['a', 'c', 'a']).2.2.2 (by decide)

/-- Witness for C10: size preservation of deleteLeaves at a concrete node. -/
theorem writeClassJSON_prune_witness :
    (deleteLeaves (JSONNode.mk "x" 3 [JSONNode.mk "y" 1 []])).size
      = (JSONNode.mk "x" 3 [JSONNode.mk "y" 1 []]).size :=
  ((writeClassJSON_prune [] (CNode.mk "r" 0 []) false).2.1
    (JSONNode.mk "x" 3 [JSONNode.mk "y" 1 []])).2
